import Mathlib

/-!
Verification development for the fault-injection results plotting scripts
(plot_results.py and plot.py).  The text-processing pipeline of
parse_results and the layout computations of the two create_graph
functions are embedded as executable Lean definitions over List Char,
and the behavioural claims about them are settled as theorems below.
-/

/-- Python raw-string whitespace as stripped by str.strip and matched by
the regex class backslash-s (space, tab, newline, carriage return,
vertical tab, form feed). -/
def isSpaceChar (c : Char) : Bool :=
  c = ' ' || c = '\t' || c = '\n' || c = '\r' || c = '\x0b' || c = '\x0c'

/-- Character class of the regex token backslash-w restricted to the
ASCII identifiers that appear in the reports: letters, digits and the
underscore. -/
def isWordChar (c : Char) : Bool :=
  c.isAlphanum || c = '_'

/-- Leading-whitespace removal, the first half of Python str.strip. -/
def stripFront (s : List Char) : List Char :=
  s.dropWhile isSpaceChar

/-- Trailing-whitespace removal, the second half of Python str.strip. -/
def stripBack (s : List Char) : List Char :=
  (s.reverse.dropWhile isSpaceChar).reverse

/-- Python str.strip with no argument: drop whitespace from both ends. -/
def pyStrip (s : List Char) : List Char :=
  stripBack (stripFront s)

/-- Python str.split with a one-character separator: always returns a
non-empty list of (possibly empty) fields, e.g. splitting the empty
string yields one empty field. -/
def splitOnChar (sep : Char) : List Char → List (List Char)
  | [] => [[]]
  | c :: cs =>
    if c = sep then
      [] :: splitOnChar sep cs
    else
      match splitOnChar sep cs with
      | [] => [[c]]
      | r :: rs => (c :: r) :: rs

/-- Join lines with a single newline between consecutive lines and no
trailing newline (used to build report texts for the round-trip claim). -/
def joinLines : List (List Char) → List Char
  | [] => []
  | [l] => l
  | l :: ls => l ++ '\n' :: joinLines ls

/-- First occurrence of a literal pattern inside a string, returning the
text before the occurrence and the text after it.  This models the
leftmost-match rule of re.search for the literal parts of the patterns
used by parse_results. -/
def splitAtSub (pat : List Char) : List Char → Option (List Char × List Char)
  | [] => if pat = [] then some ([], []) else none
  | c :: cs =>
    if pat.isPrefixOf (c :: cs) then
      some ([], (c :: cs).drop pat.length)
    else
      match splitAtSub pat cs with
      | some (pre, post) => some (c :: pre, post)
      | none => none

/-- Numeric value of a run of decimal digit characters, as computed by
Python int on a digit-only string. -/
def digitsVal (s : List Char) : Nat :=
  s.foldl (fun a c => a * 10 + (c.toNat - 48)) 0

/-- The decimal digit character for a value below ten. -/
def digitChar (n : Nat) : Char :=
  Char.ofNat (48 + n)

/-- Decimal digit list of a positive natural number (most significant
digit first); the empty list for zero. -/
def natToStrGo : Nat → List Char
  | 0 => []
  | n + 1 => natToStrGo ((n + 1) / 10) ++ [digitChar ((n + 1) % 10)]
decreasing_by exact Nat.div_lt_self (Nat.succ_pos n) (by omega)

/-- Python str applied to a non-negative int: its decimal digit string. -/
def natToStr (n : Nat) : List Char :=
  if n = 0 then ['0'] else natToStrGo n

/-- Value of a string that must consist solely of decimal digits;
rejects anything else, including the empty string. -/
def digitsOnly (s : List Char) : Option Nat :=
  if s ≠ [] ∧ s.all Char.isDigit then some (digitsVal s) else none

/-- Python int applied to an already stripped string, in the decimal
forms relevant to the report format: an optional single sign followed
by one or more digits.  Returns none where int would raise ValueError. -/
def pyInt (s : List Char) : Option Int :=
  match s with
  | [] => none
  | c :: rest =>
    if c = '-' then (digitsOnly rest).map (fun n => -(n : Int))
    else if c = '+' then (digitsOnly rest).map (fun n => (n : Int))
    else (digitsOnly (c :: rest)).map (fun n => (n : Int))

/-- Attempt of the pattern digits-then-optional-spaces-then-percent at a
fixed position whose first character is a digit: the greedy digit run,
optional whitespace, then a percent sign.  Shortening the greedy run
can never recover a failure here, because the character following a
shortened run is itself a digit, matching neither the whitespace class
nor the percent sign; so no backtracking case is needed. -/
def pctAt (s : List Char) : Option Nat :=
  let run := s.takeWhile Char.isDigit
  let rest := (s.dropWhile Char.isDigit).dropWhile isSpaceChar
  match rest with
  | '%' :: _ => some (digitsVal run)
  | _ => none

/-- re.search for the percentage pattern: scan left to right for the
first position where a digit run immediately followed (modulo spaces)
by a percent sign begins, and return the numeric value of that run. -/
def pctSearch : List Char → Option Nat
  | [] => none
  | c :: cs =>
    if c.isDigit then
      match pctAt (c :: cs) with
      | some n => some n
      | none => pctSearch cs
    else pctSearch cs

/-- re.match for the label pattern word-run slash word-run: anchored at
the start of the string only, so trailing characters after the second
word run are permitted and ignored.  Backtracking cannot alter the two
greedy word runs, because the slash and the end of the second group are
delimited by non-word characters (or the end of the string). -/
def matchDriverApp (s : List Char) : Option (List Char × List Char) :=
  let w1 := s.takeWhile isWordChar
  match s.dropWhile isWordChar with
  | '/' :: rest =>
    let w2 := rest.takeWhile isWordChar
    if w1 ≠ [] ∧ w2 ≠ [] then some (w1, w2) else none
  | _ => none

/-- One step of Python str.title: a letter is uppercased when the
previous character was not a letter and lowercased otherwise; non-letter
characters pass through and reset the word state. -/
def titleGo (prevCased : Bool) : List Char → List Char
  | [] => []
  | c :: cs =>
    if c.isAlpha then
      (if prevCased then c.toLower else c.toUpper) :: titleGo true cs
    else
      c :: titleGo false cs

/-- Python str.title for the ASCII strings handled here. -/
def pyTitle (s : List Char) : List Char :=
  titleGo false s

/-- Python str.replace of underscores by spaces (a character-wise map,
since both the pattern and the replacement are single characters). -/
def pyReplaceUnderscore (s : List Char) : List Char :=
  s.map (fun c => if c = '_' then ' ' else c)

/-- Display-name derivation of parse_results: underscores to spaces,
title case, then the fixed override for the app mp3_player. -/
def readableApp (app : List Char) : List Char :=
  let r := pyTitle (pyReplaceUnderscore app)
  if app = ("mp3_player").data then ("MP3 Player").data else r

/-- One parsed result entry of plot_results.py, with the dictionary keys
used there.  trials comes from Python int and may in principle be
negative; the three percentages come from digit-only regex groups. -/
structure Record where
  driver : List Char
  app : List Char
  display_name : List Char
  trials : Int
  auto_pct : Nat
  manual_pct : Nat
  failed_pct : Nat
deriving DecidableEq, Repr

/-- The Python exceptions that the embedded code can raise: ValueError
from int on a malformed literal (carrying that literal), and IndexError
from subscripting an empty list. -/
inductive PyExn where
  | valueError : List Char → PyExn
  | indexError : PyExn
deriving DecidableEq, Repr

/-- Body of the per-line loop of parse_results.  ok none is a skipped
row (short row, unparsable percentages with a warning printed, or a
label that re.match rejects); error is an uncaught ValueError raised by
int on the trials column, which aborts the whole parse. -/
def parseRow (line : List Char) : Except PyExn (Option Record) :=
  match splitOnChar '|' line with
  | p0 :: p1 :: p2 :: p3 :: p4 :: _ =>
    let app_driver := pyStrip p0
    match pyInt (pyStrip p1) with
    | none => .error (.valueError (pyStrip p1))
    | some trials =>
      match pctSearch (pyStrip p2), pctSearch (pyStrip p3), pctSearch (pyStrip p4) with
      | some a, some m, some f =>
        match matchDriverApp app_driver with
        | some (driver, app) =>
          .ok (some { driver := driver, app := app,
                      display_name := readableApp app, trials := trials,
                      auto_pct := a, manual_pct := m, failed_pct := f })
        | none => .ok none
      | _, _, _ => .ok none
  | _ => .ok none

/-- The accumulating loop over the data lines of parse_results. -/
def parseRows : List (List Char) → Except PyExn (List Record)
  | [] => .ok []
  | l :: ls =>
    match parseRow l with
    | .error e => .error e
    | .ok none => parseRows ls
    | .ok (some r) => (parseRows ls).map (fun rs => r :: rs)

/-- The literal prefix of the section regex of parse_results. -/
def sectionHeader : List Char :=
  ("Fault Injection Results:").data

/-- The group captured by the section regex: the text after the first
occurrence of the literal header, up to the first blank line (two
consecutive newlines) or the end of the text; none when the header does
not occur, in which case parse_results returns None. -/
def sectionBody (content : List Char) : Option (List Char) :=
  match splitAtSub sectionHeader content with
  | none => none
  | some (_, rest) =>
    match splitAtSub ['\n', '\n'] rest with
    | some (body, _) => some body
    | none => some rest

/-- Does a line contain the column separator character. -/
def pipeB (l : List Char) : Bool :=
  l.any (fun c => c = '|')

/-- The data lines of parse_results: strip the section body, split it
into lines, retain the lines containing a pipe, and drop the first two
of those (the table header and the separator row). -/
def dataLines (body : List Char) : List (List Char) :=
  ((splitOnChar '\n' (pyStrip body)).filter pipeB).drop 2

/-- parse_results of plot_results.py on the full file content.
ok none models the early return None when the section is missing;
error models an uncaught exception escaping the function. -/
def parse_results (content : List Char) : Except PyExn (Option (List Record)) :=
  match sectionBody content with
  | none => .ok none
  | some body => (parseRows (dataLines body)).map some

/-- One entry of the hardcoded dataset of plot.py, with the dictionary
keys used there (total_trials rather than trials). -/
structure PRecord where
  driver : List Char
  app : List Char
  display_name : List Char
  total_trials : Nat
  auto_pct : Nat
  manual_pct : Nat
  failed_pct : Nat
deriving DecidableEq, Repr

/-- The hardcoded simulation_results list of plot.py. -/
def simulation_results : List PRecord :=
  [ { driver := ("snd").data, app := ("mp3_player").data,
      display_name := ("MP3 Player").data, total_trials := 100,
      auto_pct := 79, manual_pct := 16, failed_pct := 5 },
    { driver := ("snd").data, app := ("audio_recorder").data,
      display_name := ("Audio Recorder").data, total_trials := 100,
      auto_pct := 44, manual_pct := 56, failed_pct := 0 },
    { driver := ("e1000").data, app := ("network_file_transfer").data,
      display_name := ("Network File Transfer").data, total_trials := 100,
      auto_pct := 97, manual_pct := 3, failed_pct := 0 },
    { driver := ("e1000").data, app := ("network_analyzer").data,
      display_name := ("Network Analyzer").data, total_trials := 100,
      auto_pct := 76, manual_pct := 24, failed_pct := 0 },
    { driver := ("ide").data, app := ("compiler").data,
      display_name := ("Compiler").data, total_trials := 100,
      auto_pct := 38, manual_pct := 58, failed_pct := 4 },
    { driver := ("ide").data, app := ("database").data,
      display_name := ("Database").data, total_trials := 100,
      auto_pct := 58, manual_pct := 38, failed_pct := 4 } ]

/-- The fixed driver-code lookup of both create_graph functions, with
the uppercased fallback of dict.get for unknown codes. -/
def driverNamesGet (d : List Char) : List Char :=
  if d = ("snd").data then ("Sound").data
  else if d = ("e1000").data then ("Network").data
  else if d = ("ide").data then ("IDE").data
  else d.map Char.toUpper

/-- The mapped category sequence of plot_results.py. -/
def driversOf (results : List Record) : List (List Char) :=
  results.map (fun r => driverNamesGet r.driver)

/-- The mapped category sequence of plot.py. -/
def driversOfSim (results : List PRecord) : List (List Char) :=
  results.map (fun r => driverNamesGet r.driver)

/-- The auto_recovery heights list of plot_results.py create_graph. -/
def autoRecovery (results : List Record) : List Nat :=
  results.map (fun r => r.auto_pct)

/-- The manual_recovery heights list of plot_results.py create_graph. -/
def manualRecovery (results : List Record) : List Nat :=
  results.map (fun r => r.manual_pct)

/-- The failed_recovery heights list of plot_results.py create_graph. -/
def failedRecovery (results : List Record) : List Nat :=
  results.map (fun r => r.failed_pct)

/-- The bottom list of the failed segments: elementwise sum of the auto
and manual heights, as built by the zip comprehension in both files. -/
def failedBottom (results : List Record) : List Nat :=
  List.zipWith (fun a m => a + m) (autoRecovery results) (manualRecovery results)

/-- Bars of one ax.bar call: position index (from np.arange) paired with
the bottom and the height of the segment drawn at that slot. -/
def segsGo (i : Nat) : List (Nat × Nat) → List (Nat × Nat × Nat)
  | [] => []
  | (b, h) :: t => (i, b, h) :: segsGo (i + 1) t

/-- The bottom segments (automatic recovery) of plot_results.py: drawn
at positions 0..n-1 with the default bottom 0. -/
def autoSegs (results : List Record) : List (Nat × Nat × Nat) :=
  segsGo 0 ((List.replicate results.length 0).zip (autoRecovery results))

/-- The middle segments (manual recovery): bottom equals the auto
height of the same slot. -/
def manualSegs (results : List Record) : List (Nat × Nat × Nat) :=
  segsGo 0 ((autoRecovery results).zip (manualRecovery results))

/-- The top segments (failed recovery): bottom equals auto plus manual
of the same slot. -/
def failedSegs (results : List Record) : List (Nat × Nat × Nat) :=
  segsGo 0 ((failedBottom results).zip (failedRecovery results))

/-- The auto_pcts heights list of plot.py create_graph. -/
def autoPcts (results : List PRecord) : List Nat :=
  results.map (fun r => r.auto_pct)

/-- The manual_pcts heights list of plot.py create_graph. -/
def manualPcts (results : List PRecord) : List Nat :=
  results.map (fun r => r.manual_pct)

/-- The failed_pcts heights list of plot.py create_graph. -/
def failedPcts (results : List PRecord) : List Nat :=
  results.map (fun r => r.failed_pct)

/-- failed_bottom of plot.py: elementwise auto plus manual. -/
def failedBottomSim (results : List PRecord) : List Nat :=
  List.zipWith (fun a m => a + m) (autoPcts results) (manualPcts results)

/-- The bottom segments of plot.py. -/
def autoSegsSim (results : List PRecord) : List (Nat × Nat × Nat) :=
  segsGo 0 ((List.replicate results.length 0).zip (autoPcts results))

/-- The middle segments of plot.py: bottom is manual_bottom, an alias
of auto_pcts. -/
def manualSegsSim (results : List PRecord) : List (Nat × Nat × Nat) :=
  segsGo 0 ((autoPcts results).zip (manualPcts results))

/-- The top segments of plot.py: bottom is failed_bottom. -/
def failedSegsSim (results : List PRecord) : List (Nat × Nat × Nat) :=
  segsGo 0 ((failedBottomSim results).zip (failedPcts results))

/-- Top edge of the stack at a slot, read off the failed segment drawn
there: its bottom plus its height. -/
def stackTop (results : List Record) (i : Nat) : Option Nat :=
  match (failedSegs results).get? i with
  | some (_, b, h) => some (b + h)
  | none => none

/-- Top edge of the stack at a slot of plot.py. -/
def stackTopSim (results : List PRecord) (i : Nat) : Option Nat :=
  match (failedSegsSim results).get? i with
  | some (_, b, h) => some (b + h)
  | none => none

/-- The number-overlay loop of plot_results.py create_graph: for each
slot, when the auto segment's height is positive, a text is placed at
the slot's centre (the bar's left edge plus half the width is the slot
index) at half the segment's height, showing that height's value. -/
def overlayGo (i : Nat) : List Nat → List (Nat × ℚ × Nat)
  | [] => []
  | h :: t =>
    (if 0 < h then [(i, ((h : ℚ)) / 2, h)] else []) ++ overlayGo (i + 1) t

/-- The overlaid auto numbers of plot_results.py. -/
def overlayTexts (results : List Record) : List (Nat × ℚ × Nat) :=
  overlayGo 0 (autoRecovery results)

/-- The number-overlay loop of plot.py create_graph: a text is placed
for every slot, with no positivity test. -/
def overlayGoSim (i : Nat) : List Nat → List (Nat × ℚ × Nat)
  | [] => []
  | v :: t => (i, ((v : ℚ)) / 2, v) :: overlayGoSim (i + 1) t

/-- The overlaid auto numbers of plot.py. -/
def overlayTextsSim (results : List PRecord) : List (Nat × ℚ × Nat) :=
  overlayGoSim 0 (autoPcts results)

/-- The separator scan shared by both create_graph functions: walk the
category list from slot 1 holding the previous slot's category, and on
each change emit a vertical line at the new slot's index minus one
half, then continue with the new category as the current one. -/
def sepGo (cur : List Char) (i : Nat) : List (List Char) → List ℚ
  | [] => []
  | d :: ds =>
    if d ≠ cur then ((i : ℚ) - 1 / 2) :: sepGo d (i + 1) ds
    else sepGo cur (i + 1) ds

/-- Separator x positions for a category list.  Both sources subscript
the first element before the scan; the callers reach this only with a
non-empty list (plot_results.py returns early on empty input and
plot.py raises IndexError before this point), so the empty case is
unreachable there and maps to no separators. -/
def separatorXs : List (List Char) → List ℚ
  | [] => []
  | d :: ds => sepGo d 1 ds

/-- The label loop shared by both create_graph functions, after its
first iteration has installed the first category: on a category change
at slot i, emit the label of the run that ended at slot i-1, centred at
the average of the run's first and last slot; when the slots are
exhausted at index i (the list length), emit the final run's label. -/
def labelsGo (cur : List Char) (start : Nat) (i : Nat) :
    List (List Char) → List (ℚ × List Char)
  | [] => [((((start : ℚ)) + ((i : ℚ)) - 1) / 2, cur)]
  | d :: ds =>
    if d ≠ cur then
      ((((start : ℚ)) + ((i : ℚ)) - 1) / 2, cur) :: labelsGo d i (i + 1) ds
    else labelsGo cur start (i + 1) ds

/-- The category labels with their centre positions.  In both sources
the loop starts with current category None, so the first slot never
emits and only installs its category; the empty case is unreachable for
the same reason as for the separators. -/
def categoryLabels : List (List Char) → List (ℚ × List Char)
  | [] => []
  | d :: ds => labelsGo d 0 1 ds

/-- Files written by a renderer together with the diagnostics printed. -/
structure RenderResult where
  messages : List (List Char)
  files : List (List Char)
deriving DecidableEq, Repr

/-- create_graph of plot_results.py at the level of its observable
outcome: on empty input it prints the error and returns before any
drawing, writing no file; otherwise it renders and writes the png and
the csv (plt.show failures are caught and only printed). -/
def create_graph (results : List Record) : RenderResult :=
  if results = [] then
    { messages := [("No results to plot!").data], files := [] }
  else
    { messages := [],
      files := [("fault_injection_outcomes.png").data,
                ("fault_injection_results.csv").data] }

/-- create_graph of plot.py at the level of its observable outcome: it
has no emptiness guard, and on empty input the separator scan
subscripts the empty category list, raising IndexError before either
savefig call, so no file is written; otherwise it writes the png and
the pdf. -/
def create_graph_sim (results : List PRecord) : Except PyExn RenderResult :=
  if results = [] then .error .indexError
  else
    .ok { messages := [],
          files := [("fault_injection_outcomes.png").data,
                    ("fault_injection_outcomes.pdf").data] }

/-- Modelled from the spec: the indices i with 1 or more, below the
list's length, whose entry differs from the previous entry — the slots
in front of which the spec places a separator. -/
def changeIdx (l : List (List Char)) : List Nat :=
  (List.range l.length).filter
    (fun i => decide (1 ≤ i) && decide (l.getD i [] ≠ l.getD (i - 1) []))

/-- Helper for the run decomposition: the current run started at slot
start, the next slot to inspect is i, and the current run's category is
cur. -/
def runsGo (start i : Nat) (cur : List Char) :
    List (List Char) → List (Nat × Nat × List Char)
  | [] => [(start, i - 1, cur)]
  | d :: ds =>
    if d = cur then runsGo start (i + 1) cur ds
    else (start, i - 1, cur) :: runsGo i (i + 1) d ds

/-- Modelled from the spec: the maximal contiguous runs of equal
entries, each as (first slot, last slot, entry). -/
def runs : List (List Char) → List (Nat × Nat × List Char)
  | [] => []
  | d :: ds => runsGo 0 1 d ds

/-- Modelled from the spec: the lines of the section body that contain
the column separator character. -/
def pipeLines (body : List Char) : List (List Char) :=
  (splitOnChar '\n' (pyStrip body)).filter pipeB

/-- Does a line split into at least five pipe-delimited columns. -/
def fiveColsB (l : List Char) : Bool :=
  5 ≤ (splitOnChar '|' l).length

/-- Modelled from the spec: a label is exactly of the driver/app shape,
with nothing before or after — a word run, a slash, and a word run that
extends to the end of the string. -/
def fullShapeB (s : List Char) : Bool :=
  let w1 := s.takeWhile isWordChar
  match s.dropWhile isWordChar with
  | '/' :: rest => !w1.isEmpty && !rest.isEmpty && rest.all isWordChar
  | _ => false

/-- Input data for the round-trip claim: the six fields a well-formed
report row carries. -/
structure RecordData where
  driver : List Char
  app : List Char
  trials : Nat
  auto : Nat
  manual : Nat
  failed : Nat
deriving DecidableEq, Repr

/-- Well-formedness of round-trip input: label halves are non-empty
word-character strings. -/
def wfData (r : RecordData) : Prop :=
  r.driver ≠ [] ∧ r.driver.all isWordChar = true ∧
  r.app ≠ [] ∧ r.app.all isWordChar = true

instance (r : RecordData) : Decidable (wfData r) := by
  unfold wfData; infer_instance

/-- Modelled from the spec: one report row in the documented format,
label, trial count and the three percentage columns separated by
pipes. -/
def renderRow (r : RecordData) : List Char :=
  r.driver ++ '/' :: r.app ++ [' '] ++ '|' :: ' ' :: natToStr r.trials ++ [' ']
    ++ '|' :: ' ' :: natToStr r.auto ++ ['%', ' ']
    ++ '|' :: ' ' :: natToStr r.manual ++ ['%', ' ']
    ++ '|' :: ' ' :: natToStr r.failed ++ ['%']

/-- Modelled from the spec: the first, pipe-containing header line of
the generated report table. -/
def headerOne : List Char :=
  ("Driver/App | Trials | Automatic | Manual | Failed").data

/-- Modelled from the spec: the second, pipe-containing header line of
the generated report table. -/
def headerTwo : List Char :=
  ("-----------|--------|-----------|--------|-------").data

/-- Modelled from the spec: a full report generated from a record set —
the results-section header followed by the two-line table header and
one row per record. -/
def renderReport (rs : List RecordData) : List Char :=
  sectionHeader ++ '\n' :: joinLines (headerOne :: headerTwo :: rs.map renderRow)

/-- The Record that parse_results is expected to recover from a
generated row: the six data fields unchanged and the display name
derived from the app identifier. -/
def expectedRecord (r : RecordData) : Record :=
  { driver := r.driver, app := r.app, display_name := readableApp r.app,
    trials := (r.trials : Int), auto_pct := r.auto,
    manual_pct := r.manual, failed_pct := r.failed }

deriving instance DecidableEq for Except

/-- A report whose first data row carries a non-integer trials column
and whose second data row is fully well formed. -/
def badTrialsReport : List Char :=
  ("Fault Injection Results:\nApp | Trials | Auto | Manual | Failed\n----|--------|------|--------|-------\nsnd/mp3_player | abc | 79% | 16% | 5%\nsnd/audio_recorder | 100 | 44% | 56% | 0%").data

/-- A report whose only data row has trailing non-word characters after
the driver/app label. -/
def trailingLabelReport : List Char :=
  ("Fault Injection Results:\nApp | Trials | Auto | Manual | Failed\n----|--------|------|--------|-------\nsnd/mp3_player!x | 100 | 79% | 16% | 5%").data

/-- A record whose percentages sum to 150, for exercising the
no-clamping property of the stacking layout. -/
def sumRecord : Record :=
  ⟨("snd").data, ("alpha").data, ("Alpha").data, 100, 90, 40, 20⟩

/-- A plot.py record with a zero automatic-recovery percentage. -/
def zeroAutoSim : PRecord :=
  ⟨("snd").data, ("levels").data, ("Levels").data, 100, 0, 50, 50⟩

/-- The first data row of the spec's concrete scenario. -/
def mp3Row : List Char :=
  ("snd/mp3_player | 100 | 79% | 16% | 5%").data

/-- The record that parse_results builds from mp3Row. -/
def mp3Record : Record :=
  ⟨("snd").data, ("mp3_player").data, ("MP3 Player").data, 100, 79, 16, 5⟩

/-- A data row whose label carries trailing non-word characters. -/
def trailingRow : List Char :=
  ("snd/mp3_player!x | 100 | 79% | 16% | 5%").data

/-- The two records of the spec's concrete scenario as round-trip input. -/
def scenarioData : List RecordData :=
  [⟨("snd").data, ("mp3_player").data, 100, 79, 16, 5⟩,
   ⟨("snd").data, ("audio_recorder").data, 100, 44, 56, 0⟩]

/-- A three-slot mapped-category list with one change point. -/
def sepDrivers : List (List Char) :=
  [("Sound").data, ("Sound").data, ("Network").data]

theorem space_cases {c : Char} (h : isSpaceChar c = true) :
    c = ' ' ∨ c = '\t' ∨ c = '\n' ∨ c = '\r' ∨ c = '\x0b' ∨ c = '\x0c' := by
  simp [isSpaceChar] at h
  tauto

theorem digit_not_space {c : Char} (h : c.isDigit = true) : isSpaceChar c = false := by
  cases hs : isSpaceChar c with
  | false => rfl
  | true =>
    rcases space_cases hs with h' | h' | h' | h' | h' | h' <;> subst h' <;> simp_all

theorem digit_word {c : Char} (h : c.isDigit = true) : isWordChar c = true := by
  simp [isWordChar, Char.isAlphanum, h]

theorem digit_toNat {c : Char} (h : c.isDigit = true) : 48 ≤ c.toNat ∧ c.toNat ≤ 57 := by
  simp only [Char.isDigit, decide_eq_true_eq, Bool.and_eq_true] at h
  obtain ⟨h1, h2⟩ := h
  exact ⟨h1, h2⟩

theorem digit_ne {c : Char} (h : c.isDigit = true) :
    c ≠ '|' ∧ c ≠ '%' ∧ c ≠ '\n' ∧ c ≠ '-' ∧ c ≠ '+' ∧ c ≠ '/' := by
  refine ⟨?_, ?_, ?_, ?_, ?_, ?_⟩ <;> intro e <;> subst e <;> simp_all

theorem word_not_space {c : Char} (h : isWordChar c = true) : isSpaceChar c = false := by
  cases hs : isSpaceChar c with
  | false => rfl
  | true =>
    rcases space_cases hs with h' | h' | h' | h' | h' | h' <;> subst h' <;>
      simp [isWordChar, Char.isAlphanum] at h

theorem word_ne {c : Char} (h : isWordChar c = true) :
    c ≠ '|' ∧ c ≠ '\n' ∧ c ≠ '/' ∧ c ≠ '%' := by
  refine ⟨?_, ?_, ?_, ?_⟩ <;> intro e <;> subst e <;>
    simp [isWordChar, Char.isAlphanum] at h

theorem stripFront_cons_space {c : Char} {s : List Char} (h : isSpaceChar c = true) :
    stripFront (c :: s) = stripFront s := by
  simp [stripFront, List.dropWhile_cons, h]

theorem stripFront_cons_keep {c : Char} {s : List Char} (h : isSpaceChar c = false) :
    stripFront (c :: s) = c :: s := by
  simp [stripFront, List.dropWhile_cons, h]

theorem stripBack_append_space {c : Char} {s : List Char} (h : isSpaceChar c = true) :
    stripBack (s ++ [c]) = stripBack s := by
  simp [stripBack, List.dropWhile_cons, h]

theorem stripBack_append_keep {c : Char} {s : List Char} (h : isSpaceChar c = false) :
    stripBack (s ++ [c]) = s ++ [c] := by
  simp [stripBack, List.dropWhile_cons, h]

theorem splitOnChar_no_sep {sep : Char} : ∀ {l : List Char}, sep ∉ l →
    splitOnChar sep l = [l]
  | [], _ => rfl
  | c :: cs, h => by
    have hc : ¬ c = sep := fun e => h (e ▸ List.mem_cons_self c cs)
    have ih := splitOnChar_no_sep (l := cs) (fun m => h (List.mem_cons_of_mem c m))
    simp [splitOnChar, hc, ih]

theorem splitOnChar_append {sep : Char} : ∀ {l : List Char}, sep ∉ l → ∀ (t : List Char),
    splitOnChar sep (l ++ sep :: t) = l :: splitOnChar sep t
  | [], _, t => by simp [splitOnChar]
  | c :: cs, h, t => by
    have hc : ¬ c = sep := fun e => h (e ▸ List.mem_cons_self c cs)
    have ih := splitOnChar_append (l := cs) (fun m => h (List.mem_cons_of_mem c m)) t
    simp [splitOnChar, hc, ih]

theorem splitOnChar_joinLines : ∀ {lines : List (List Char)},
    lines ≠ [] → (∀ l ∈ lines, '\n' ∉ l) →
    splitOnChar '\n' (joinLines lines) = lines
  | [], h, _ => absurd rfl h
  | [l], _, h => by
    simpa [joinLines] using splitOnChar_no_sep (h l (by simp))
  | l :: l' :: ls, _, h => by
    have hjoin : joinLines (l :: l' :: ls) = l ++ '\n' :: joinLines (l' :: ls) := rfl
    have ih := @splitOnChar_joinLines (l' :: ls) (by simp)
      (fun x hx => h x (List.mem_cons_of_mem l hx))
    rw [hjoin, splitOnChar_append (h l (by simp)), ih]

theorem isPrefixOf_self_append {pat t : List Char} : pat.isPrefixOf (pat ++ t) = true := by
  induction pat with
  | nil => simp [List.isPrefixOf]
  | cons c cs ih => simp [List.isPrefixOf, ih]

theorem splitAtSub_self_start {pat t : List Char} (h : pat ≠ []) :
    splitAtSub pat (pat ++ t) = some ([], t) := by
  obtain ⟨c, cs, rfl⟩ := List.exists_cons_of_ne_nil h
  show splitAtSub (c :: cs) (c :: (cs ++ t)) = some ([], t)
  rw [splitAtSub]
  have hpre : (c :: cs).isPrefixOf (c :: (cs ++ t)) = true := isPrefixOf_self_append
  simp only [hpre, if_true]
  simp [List.drop_left]

theorem splitAtSub_nn_skip : ∀ {l : List Char}, '\n' ∉ l → ∀ (t : List Char),
    splitAtSub ['\n', '\n'] (l ++ t) =
      (splitAtSub ['\n', '\n'] t).map (fun pq => (l ++ pq.1, pq.2))
  | [], _, t => by
    cases h : splitAtSub ['\n', '\n'] t <;> simp [h]
  | c :: cs, h, t => by
    have hc : ¬ c = '\n' := fun e => h (e ▸ List.mem_cons_self c cs)
    have ih := splitAtSub_nn_skip (l := cs) (fun m => h (List.mem_cons_of_mem c m)) t
    have hpre : (['\n', '\n'] : List Char).isPrefixOf (c :: (cs ++ t)) = false := by
      simp [List.isPrefixOf]
      intro e
      exact absurd e.symm hc
    show splitAtSub ['\n', '\n'] (c :: (cs ++ t)) = _
    rw [splitAtSub, hpre]
    simp only [Bool.false_eq_true, if_false, ih]
    cases hs : splitAtSub ['\n', '\n'] t <;> simp [hs]

theorem joinLines_cons_eq : ∀ (l : List Char) (ls : List (List Char)),
    ∃ t, joinLines (l :: ls) = l ++ t
  | l, [] => ⟨[], by simp [joinLines]⟩
  | l, l' :: ls => ⟨'\n' :: joinLines (l' :: ls), rfl⟩

theorem splitAtSub_nn_joinLines : ∀ {lines : List (List Char)},
    (∀ l ∈ lines, l ≠ [] ∧ '\n' ∉ l) →
    splitAtSub ['\n', '\n'] (joinLines lines) = none
  | [], _ => by simp [joinLines, splitAtSub]
  | [l], h => by
    have := splitAtSub_nn_skip (h l (by simp)).2 []
    simpa [joinLines, splitAtSub] using this
  | l :: l' :: ls, h => by
    have hjoin : joinLines (l :: l' :: ls) = l ++ '\n' :: joinLines (l' :: ls) := rfl
    have ih := @splitAtSub_nn_joinLines (l' :: ls)
      (fun x hx => h x (List.mem_cons_of_mem l hx))
    obtain ⟨t, ht⟩ := joinLines_cons_eq l' ls
    obtain ⟨c, cs, hc⟩ := List.exists_cons_of_ne_nil (h l' (by simp)).1
    have hcn : ¬ c = '\n' := fun e =>
      (h l' (by simp)).2 (e ▸ hc ▸ List.mem_cons_self c cs)
    have hpre : (['\n', '\n'] : List Char).isPrefixOf ('\n' :: joinLines (l' :: ls)) = false := by
      rw [ht, hc]
      simp [List.isPrefixOf]
      intro e
      exact absurd e.symm hcn
    rw [hjoin, splitAtSub_nn_skip (h l (by simp)).2]
    rw [splitAtSub, hpre]
    simp only [Bool.false_eq_true, if_false, ih]
    rfl

theorem takeWhile_all_append {p : Char → Bool} : ∀ {s : List Char},
    (∀ c ∈ s, p c = true) → ∀ {x : Char} (t : List Char), p x = false →
    (s ++ x :: t).takeWhile p = s
  | [], _, x, t, hx => by simp [List.takeWhile_cons, hx]
  | c :: cs, h, x, t, hx => by
    have hc : p c = true := h c (by simp)
    have ih := takeWhile_all_append (s := cs) (fun d hd => h d (by simp [hd])) t hx
    simp [List.takeWhile_cons, hc, ih]

theorem dropWhile_all_append {p : Char → Bool} : ∀ {s : List Char},
    (∀ c ∈ s, p c = true) → ∀ {x : Char} (t : List Char), p x = false →
    (s ++ x :: t).dropWhile p = x :: t
  | [], _, x, t, hx => by simp [List.dropWhile_cons, hx]
  | c :: cs, h, x, t, hx => by
    have hc : p c = true := h c (by simp)
    have ih := dropWhile_all_append (s := cs) (fun d hd => h d (by simp [hd])) t hx
    simp [List.dropWhile_cons, hc, ih]

theorem takeWhile_all {p : Char → Bool} : ∀ {s : List Char},
    (∀ c ∈ s, p c = true) → s.takeWhile p = s
  | [], _ => rfl
  | c :: cs, h => by
    have hc : p c = true := h c (by simp)
    have ih := takeWhile_all (s := cs) (fun d hd => h d (by simp [hd]))
    simp [List.takeWhile_cons, hc, ih]

theorem digitChar_isDigit {m : Nat} (h : m < 10) : (digitChar m).isDigit = true := by
  interval_cases m <;> decide

theorem digitChar_toNat {m : Nat} (h : m < 10) : (digitChar m).toNat = 48 + m := by
  interval_cases m <;> decide

theorem natToStrGo_digits (n : Nat) : ∀ c ∈ natToStrGo n, c.isDigit = true := by
  induction n using Nat.strong_induction_on with
  | _ n ih =>
    match n with
    | 0 => simp [natToStrGo]
    | m + 1 =>
      rw [natToStrGo]
      intro c hc
      rcases List.mem_append.mp hc with h | h
      · exact ih ((m + 1) / 10) (Nat.div_lt_self (Nat.succ_pos m) (by omega)) c h
      · rw [List.mem_singleton.mp h]
        exact digitChar_isDigit (Nat.mod_lt _ (by omega))

theorem natToStr_digits (n : Nat) : ∀ c ∈ natToStr n, c.isDigit = true := by
  unfold natToStr
  split
  · simp
  · exact natToStrGo_digits n

theorem natToStrGo_ne_nil {n : Nat} (h : n ≠ 0) : natToStrGo n ≠ [] := by
  match n with
  | m + 1 => rw [natToStrGo]; simp

theorem natToStr_ne_nil (n : Nat) : natToStr n ≠ [] := by
  unfold natToStr
  split
  · simp
  · exact natToStrGo_ne_nil (by assumption)

theorem digitsVal_append (s : List Char) (c : Char) :
    digitsVal (s ++ [c]) = digitsVal s * 10 + (c.toNat - 48) := by
  simp [digitsVal, List.foldl_append]

theorem digitsVal_natToStrGo (n : Nat) : digitsVal (natToStrGo n) = n := by
  induction n using Nat.strong_induction_on with
  | _ n ih =>
    match n with
    | 0 => simp [natToStrGo, digitsVal]
    | m + 1 =>
      rw [natToStrGo, digitsVal_append,
        ih ((m + 1) / 10) (Nat.div_lt_self (Nat.succ_pos m) (by omega)),
        digitChar_toNat (Nat.mod_lt _ (by omega))]
      omega

theorem digitsVal_natToStr (n : Nat) : digitsVal (natToStr n) = n := by
  unfold natToStr
  split
  · subst n; rfl
  · exact digitsVal_natToStrGo n

theorem digitsOnly_natToStr (n : Nat) : digitsOnly (natToStr n) = some n := by
  unfold digitsOnly
  rw [if_pos]
  · rw [digitsVal_natToStr]
  · exact ⟨natToStr_ne_nil n, List.all_eq_true.mpr (natToStr_digits n)⟩

theorem pyInt_natToStr (n : Nat) : pyInt (natToStr n) = some (n : Int) := by
  cases h : natToStr n with
  | nil => exact absurd h (natToStr_ne_nil n)
  | cons c rest =>
    have hd : c.isDigit = true := natToStr_digits n c (h ▸ List.mem_cons_self c rest)
    have hne := digit_ne hd
    rw [pyInt, if_neg, if_neg, ← h, digitsOnly_natToStr]
    · rfl
    · exact hne.2.2.2.2.1
    · exact hne.2.2.2.1

theorem pctAt_digits_percent {s : List Char} (hs : s ≠ [])
    (hd : ∀ c ∈ s, c.isDigit = true) (t : List Char) :
    pctAt (s ++ '%' :: t) = some (digitsVal s) := by
  have hp : ('%').isDigit = false := by decide
  rw [pctAt]
  rw [takeWhile_all_append hd t hp, dropWhile_all_append hd t hp]
  rw [List.dropWhile_cons]
  simp [show isSpaceChar '%' = false from by decide]

theorem pctSearch_natToStr (n : Nat) (t : List Char) :
    pctSearch (natToStr n ++ '%' :: t) = some n := by
  have hall : ∀ d ∈ natToStr n, d.isDigit = true := natToStr_digits n
  have hpct := pctAt_digits_percent (natToStr_ne_nil n) hall t
  have hv : digitsVal (natToStr n) = n := digitsVal_natToStr n
  cases h : natToStr n with
  | nil => exact absurd h (natToStr_ne_nil n)
  | cons c rest =>
    have hd : c.isDigit = true := hall c (h ▸ List.mem_cons_self c rest)
    rw [h] at hpct hv
    show pctSearch (c :: (rest ++ '%' :: t)) = some n
    rw [List.cons_append] at hpct
    rw [pctSearch]
    simp only [hd, if_true]
    rw [hpct, hv]

theorem dropWhile_all_false {p : Char → Bool} {s : List Char}
    (h : ∀ c ∈ s, p c = false) : s.dropWhile p = s := by
  cases s with
  | nil => rfl
  | cons c cs => rw [List.dropWhile_cons]; simp [h c (by simp)]

theorem pyStrip_all_nonspace {X : List Char}
    (hall : ∀ c ∈ X, isSpaceChar c = false) : pyStrip X = X := by
  unfold pyStrip stripFront stripBack
  rw [dropWhile_all_false hall,
    dropWhile_all_false (fun c hc => hall c (List.mem_reverse.mp hc))]
  exact List.reverse_reverse X

theorem pyStrip_core_space {X : List Char} (hX : X ≠ [])
    (hall : ∀ c ∈ X, isSpaceChar c = false) : pyStrip (X ++ [' ']) = X := by
  obtain ⟨c, cs, rfl⟩ := List.exists_cons_of_ne_nil hX
  unfold pyStrip
  rw [show (c :: cs) ++ [' '] = c :: (cs ++ [' ']) from rfl,
    stripFront_cons_keep (hall c (by simp)),
    show c :: (cs ++ [' ']) = (c :: cs) ++ [' '] from rfl,
    stripBack_append_space (by decide)]
  unfold stripBack
  rw [dropWhile_all_false (fun d hd => hall d (List.mem_reverse.mp hd))]
  exact List.reverse_reverse _

theorem pyStrip_space_cons {c : Char} (hc : isSpaceChar c = true) (s : List Char) :
    pyStrip (c :: s) = pyStrip s := by
  unfold pyStrip
  rw [stripFront_cons_space hc]

theorem matchDriverApp_exact {d a : List Char} (hd : d ≠ [])
    (hdw : ∀ c ∈ d, isWordChar c = true) (ha : a ≠ [])
    (haw : ∀ c ∈ a, isWordChar c = true) :
    matchDriverApp (d ++ '/' :: a) = some (d, a) := by
  have hslash : isWordChar '/' = false := by decide
  unfold matchDriverApp
  rw [takeWhile_all_append hdw a hslash, dropWhile_all_append hdw a hslash]
  simp [takeWhile_all haw, hd, ha]

theorem matchDriverApp_some_shape {s d a : List Char}
    (h : matchDriverApp s = some (d, a)) :
    d ≠ [] ∧ a ≠ [] ∧ (∀ c ∈ d, isWordChar c = true) ∧
      (∀ c ∈ a, isWordChar c = true) ∧ ∃ rest, s = d ++ '/' :: (a ++ rest) := by
  unfold matchDriverApp at h
  split at h
  case h_2 => exact absurd h (by simp)
  case h_1 c rest heq =>
    dsimp only at h
    by_cases hcond : List.takeWhile isWordChar s ≠ [] ∧ List.takeWhile isWordChar rest ≠ []
    · rw [if_pos hcond] at h
      obtain ⟨hd, ha⟩ := hcond
      obtain ⟨hdv, hav⟩ := Prod.mk.injEq .. ▸ Option.some.injEq .. ▸ h
      subst hdv
      subst hav
      refine ⟨hd, ha, fun c hc => List.mem_takeWhile_imp hc,
        fun c hc => List.mem_takeWhile_imp hc, rest.dropWhile isWordChar, ?_⟩
      conv_lhs => rw [← List.takeWhile_append_dropWhile (p := isWordChar) (l := s)]
      rw [heq]
      conv_lhs => rw [← List.takeWhile_append_dropWhile (p := isWordChar) (l := rest)]
    · rw [if_neg hcond] at h
      exact absurd h (by simp)

theorem matchDriverApp_isSome_iff (s : List Char) :
    (matchDriverApp s).isSome = true ↔
      ∃ d a rest, s = d ++ '/' :: (a ++ rest) ∧ d ≠ [] ∧ a ≠ [] ∧
        (∀ c ∈ d, isWordChar c = true) ∧ (∀ c ∈ a, isWordChar c = true) := by
  constructor
  · intro h
    obtain ⟨⟨d, a⟩, hda⟩ := Option.isSome_iff_exists.mp h
    obtain ⟨hd, ha, hdw, haw, rest, hs⟩ := matchDriverApp_some_shape hda
    exact ⟨d, a, rest, hs, hd, ha, hdw, haw⟩
  · rintro ⟨d, a, rest, rfl, hd, ha, hdw, haw⟩
    have hslash : isWordChar '/' = false := by decide
    unfold matchDriverApp
    rw [takeWhile_all_append hdw (a ++ rest) hslash,
      dropWhile_all_append hdw (a ++ rest) hslash]
    obtain ⟨c, cs, rfl⟩ := List.exists_cons_of_ne_nil ha
    have hc : isWordChar c = true := haw c (by simp)
    simp [List.takeWhile_cons, hc, hd]

theorem pipe_not_mem_label {d a : List Char}
    (hdw : ∀ c ∈ d, isWordChar c = true) (haw : ∀ c ∈ a, isWordChar c = true) :
    '|' ∉ d ++ '/' :: (a ++ [' ']) := by
  intro hm
  rcases List.mem_append.mp hm with hm | hm
  · exact absurd (hdw '|' hm) (by decide)
  · rcases List.mem_cons.mp hm with hm | hm
    · exact absurd hm (by decide)
    · rcases List.mem_append.mp hm with hm | hm
      · exact absurd (haw '|' hm) (by decide)
      · exact absurd (List.mem_singleton.mp hm) (by decide)

theorem pipe_not_mem_numfield {n : Nat} {tail : List Char} (htail : '|' ∉ tail) :
    '|' ∉ ' ' :: (natToStr n ++ tail) := by
  intro hm
  rcases List.mem_cons.mp hm with hm | hm
  · exact absurd hm (by decide)
  · rcases List.mem_append.mp hm with hm | hm
    · exact absurd (digit_ne (natToStr_digits n '|' hm)).1 (by simp)
    · exact htail hm

theorem splitOnChar_renderRow (r : RecordData)
    (hdw : ∀ c ∈ r.driver, isWordChar c = true)
    (haw : ∀ c ∈ r.app, isWordChar c = true) :
    splitOnChar '|' (renderRow r) =
      [r.driver ++ '/' :: (r.app ++ [' ']),
       ' ' :: (natToStr r.trials ++ [' ']),
       ' ' :: (natToStr r.auto ++ ['%', ' ']),
       ' ' :: (natToStr r.manual ++ ['%', ' ']),
       ' ' :: (natToStr r.failed ++ ['%'])] := by
  have e : renderRow r =
      (r.driver ++ '/' :: (r.app ++ [' '])) ++ '|' ::
        ((' ' :: (natToStr r.trials ++ [' '])) ++ '|' ::
          ((' ' :: (natToStr r.auto ++ ['%', ' '])) ++ '|' ::
            ((' ' :: (natToStr r.manual ++ ['%', ' '])) ++ '|' ::
              (' ' :: (natToStr r.failed ++ ['%']))))) := by
    simp [renderRow]
  rw [e, splitOnChar_append (pipe_not_mem_label hdw haw),
    splitOnChar_append (pipe_not_mem_numfield (by decide)),
    splitOnChar_append (pipe_not_mem_numfield (by decide)),
    splitOnChar_append (pipe_not_mem_numfield (by decide)),
    splitOnChar_no_sep (pipe_not_mem_numfield (by decide))]

theorem parseRow_renderRow (r : RecordData) (h : wfData r) :
    parseRow (renderRow r) = .ok (some (expectedRecord r)) := by
  obtain ⟨hdne, hdwb, hane, hawb⟩ := h
  have hdw : ∀ c ∈ r.driver, isWordChar c = true := List.all_eq_true.mp hdwb
  have haw : ∀ c ∈ r.app, isWordChar c = true := List.all_eq_true.mp hawb
  have hsplit := splitOnChar_renderRow r hdw haw
  have hp0 : pyStrip (r.driver ++ '/' :: (r.app ++ [' '])) = r.driver ++ '/' :: r.app := by
    rw [show r.driver ++ '/' :: (r.app ++ [' ']) = (r.driver ++ '/' :: r.app) ++ [' ']
      from by simp]
    refine pyStrip_core_space (by simp) ?_
    intro c hc
    rcases List.mem_append.mp hc with hc | hc
    · exact word_not_space (hdw c hc)
    · rcases List.mem_cons.mp hc with hc | hc
      · rw [hc]; decide
      · exact word_not_space (haw c hc)
  have hp1 : pyStrip (' ' :: (natToStr r.trials ++ [' '])) = natToStr r.trials := by
    rw [pyStrip_space_cons (by decide)]
    exact pyStrip_core_space (natToStr_ne_nil _)
      (fun c hc => digit_not_space (natToStr_digits _ c hc))
  have hpctfield : ∀ n : Nat,
      pyStrip (' ' :: (natToStr n ++ ['%', ' '])) = natToStr n ++ ['%'] := by
    intro n
    rw [pyStrip_space_cons (by decide),
      show natToStr n ++ ['%', ' '] = (natToStr n ++ ['%']) ++ [' '] from by simp]
    refine pyStrip_core_space (by simp) ?_
    intro c hc
    rcases List.mem_append.mp hc with hc | hc
    · exact digit_not_space (natToStr_digits _ c hc)
    · rw [List.mem_singleton.mp hc]; decide
  have hp4 : pyStrip (' ' :: (natToStr r.failed ++ ['%'])) = natToStr r.failed ++ ['%'] := by
    rw [pyStrip_space_cons (by decide)]
    refine pyStrip_all_nonspace ?_
    intro c hc
    rcases List.mem_append.mp hc with hc | hc
    · exact digit_not_space (natToStr_digits _ c hc)
    · rw [List.mem_singleton.mp hc]; decide
  have hm : matchDriverApp (r.driver ++ '/' :: r.app) = some (r.driver, r.app) :=
    matchDriverApp_exact hdne hdw hane haw
  have hpct : ∀ n : Nat, pctSearch (natToStr n ++ ['%']) = some n :=
    fun n => pctSearch_natToStr n []
  unfold parseRow
  rw [hsplit]
  dsimp only
  rw [hp1, pyInt_natToStr]
  dsimp only
  rw [hpctfield r.auto, hpctfield r.manual, hp4, hpct r.auto, hpct r.manual, hpct r.failed]
  dsimp only
  rw [hp0, hm]
  rfl

theorem parseRows_map_renderRow : ∀ {rs : List RecordData}, (∀ r ∈ rs, wfData r) →
    parseRows (rs.map renderRow) = .ok (rs.map expectedRecord)
  | [], _ => rfl
  | r :: rs, h => by
    have hr := parseRow_renderRow r (h r (by simp))
    have ih := @parseRows_map_renderRow rs (fun x hx => h x (by simp [hx]))
    simp only [List.map_cons, parseRows, hr, ih]
    rfl

theorem renderRow_ne_nil (r : RecordData) : renderRow r ≠ [] := by
  intro h
  have : '%' ∈ renderRow r := by
    simp [renderRow, List.mem_append]
  rw [h] at this
  exact absurd this (List.not_mem_nil '%')

theorem renderRow_pipe (r : RecordData) : pipeB (renderRow r) = true := by
  have : '|' ∈ renderRow r := by
    simp [renderRow, List.mem_append]
  simp only [pipeB, List.any_eq_true]
  exact ⟨'|', this, by simp⟩

theorem renderRow_concat (r : RecordData) :
    ∃ Z, renderRow r = Z ++ ['%'] := by
  refine ⟨r.driver ++ '/' :: r.app ++ [' '] ++ '|' :: ' ' :: natToStr r.trials ++ [' ']
    ++ '|' :: ' ' :: natToStr r.auto ++ ['%', ' ']
    ++ '|' :: ' ' :: natToStr r.manual ++ ['%', ' ']
    ++ '|' :: ' ' :: natToStr r.failed, ?_⟩
  simp [renderRow]

theorem char_not_mem_label {x : Char} {d a : List Char}
    (hxw : isWordChar x = false) (hx1 : x ≠ '/') (hx2 : x ≠ ' ')
    (hdw : ∀ c ∈ d, isWordChar c = true) (haw : ∀ c ∈ a, isWordChar c = true) :
    x ∉ d ++ '/' :: (a ++ [' ']) := by
  intro hm
  rcases List.mem_append.mp hm with hm | hm
  · rw [hdw x hm] at hxw
    exact absurd hxw (by simp)
  · rcases List.mem_cons.mp hm with hm | hm
    · exact hx1 hm
    · rcases List.mem_append.mp hm with hm | hm
      · rw [haw x hm] at hxw
        exact absurd hxw (by simp)
      · exact hx2 (List.mem_singleton.mp hm)

theorem char_not_mem_numfield {x : Char} {n : Nat} {tail : List Char}
    (hxd : x.isDigit = false) (hxs : x ≠ ' ') (htail : x ∉ tail) :
    x ∉ ' ' :: (natToStr n ++ tail) := by
  intro hm
  rcases List.mem_cons.mp hm with hm | hm
  · exact hxs hm
  · rcases List.mem_append.mp hm with hm | hm
    · rw [natToStr_digits n x hm] at hxd
      exact absurd hxd (by simp)
    · exact htail hm

theorem renderRow_decomp (r : RecordData) : renderRow r =
    (r.driver ++ '/' :: (r.app ++ [' '])) ++ '|' ::
      ((' ' :: (natToStr r.trials ++ [' '])) ++ '|' ::
        ((' ' :: (natToStr r.auto ++ ['%', ' '])) ++ '|' ::
          ((' ' :: (natToStr r.manual ++ ['%', ' '])) ++ '|' ::
            (' ' :: (natToStr r.failed ++ ['%']))))) := by
  simp [renderRow]

theorem renderRow_no_newline (r : RecordData)
    (hdw : ∀ c ∈ r.driver, isWordChar c = true)
    (haw : ∀ c ∈ r.app, isWordChar c = true) : '\n' ∉ renderRow r := by
  rw [renderRow_decomp]
  intro hm
  have hlabel := char_not_mem_label (x := '\n') (by decide) (by decide) (by decide) hdw haw
  have hnum : ∀ (n : Nat) (tail : List Char), '\n' ∉ tail →
      '\n' ∉ ' ' :: (natToStr n ++ tail) :=
    fun n tail ht => char_not_mem_numfield (by decide) (by decide) ht
  rcases List.mem_append.mp hm with hm | hm
  · exact hlabel hm
  · rcases List.mem_cons.mp hm with hm | hm
    · exact absurd hm (by decide)
    · rcases List.mem_append.mp hm with hm | hm
      · exact hnum r.trials [' '] (by decide) hm
      · rcases List.mem_cons.mp hm with hm | hm
        · exact absurd hm (by decide)
        · rcases List.mem_append.mp hm with hm | hm
          · exact hnum r.auto ['%', ' '] (by decide) hm
          · rcases List.mem_cons.mp hm with hm | hm
            · exact absurd hm (by decide)
            · rcases List.mem_append.mp hm with hm | hm
              · exact hnum r.manual ['%', ' '] (by decide) hm
              · rcases List.mem_cons.mp hm with hm | hm
                · exact absurd hm (by decide)
                · exact hnum r.failed ['%'] (by decide) hm

theorem joinLines_ends_nonspace : ∀ {lines : List (List Char)}, lines ≠ [] →
    (∀ l ∈ lines, ∃ Z c, l = Z ++ [c] ∧ isSpaceChar c = false) →
    ∃ Z c, joinLines lines = Z ++ [c] ∧ isSpaceChar c = false
  | [], h, _ => absurd rfl h
  | [l], _, h => by simpa [joinLines] using h l (by simp)
  | l :: l' :: ls, _, h => by
    obtain ⟨Z, c, hZ, hc⟩ := @joinLines_ends_nonspace (l' :: ls) (by simp)
      (fun x hx => h x (List.mem_cons_of_mem l hx))
    refine ⟨l ++ '\n' :: Z, c, ?_, hc⟩
    show l ++ '\n' :: joinLines (l' :: ls) = l ++ '\n' :: Z ++ [c]
    rw [hZ]
    simp

theorem headerOne_head : headerOne =
    'D' :: ("river/App | Trials | Automatic | Manual | Failed").data := by decide

theorem reportLines_ok (rs : List RecordData) (h : ∀ r ∈ rs, wfData r) :
    ∀ l ∈ headerOne :: headerTwo :: rs.map renderRow, l ≠ [] ∧ '\n' ∉ l := by
  intro l hl
  rcases List.mem_cons.mp hl with rfl | hl
  · exact ⟨by decide, by decide⟩
  · rcases List.mem_cons.mp hl with rfl | hl
    · exact ⟨by decide, by decide⟩
    · obtain ⟨r, hr, rfl⟩ := List.mem_map.mp hl
      obtain ⟨hdne, hdwb, hane, hawb⟩ := h r hr
      exact ⟨renderRow_ne_nil r,
        renderRow_no_newline r (List.all_eq_true.mp hdwb) (List.all_eq_true.mp hawb)⟩

theorem reportLines_end_nonspace (rs : List RecordData) :
    ∀ l ∈ headerOne :: headerTwo :: rs.map renderRow,
      ∃ Z c, l = Z ++ [c] ∧ isSpaceChar c = false := by
  intro l hl
  rcases List.mem_cons.mp hl with rfl | hl
  · exact ⟨("Driver/App | Trials | Automatic | Manual | Faile").data, 'd',
      by decide, by decide⟩
  · rcases List.mem_cons.mp hl with rfl | hl
    · exact ⟨("-----------|--------|-----------|--------|------").data, '-',
        by decide, by decide⟩
    · obtain ⟨r, hr, rfl⟩ := List.mem_map.mp hl
      obtain ⟨Z, hZ⟩ := renderRow_concat r
      exact ⟨Z, '%', hZ, by decide⟩

theorem pyStrip_report_rest (rs : List RecordData) :
    pyStrip ('\n' :: joinLines (headerOne :: headerTwo :: rs.map renderRow)) =
      joinLines (headerOne :: headerTwo :: rs.map renderRow) := by
  rw [pyStrip_space_cons (by decide)]
  obtain ⟨t, ht⟩ := joinLines_cons_eq headerOne (headerTwo :: rs.map renderRow)
  obtain ⟨Z, c, hZ, hc⟩ := joinLines_ends_nonspace (by simp) (reportLines_end_nonspace rs)
  unfold pyStrip
  rw [ht, headerOne_head, List.cons_append, stripFront_cons_keep (by decide),
    ← List.cons_append, ← headerOne_head, ← ht, hZ, stripBack_append_keep hc]

theorem splitAtSub_cons_none {pat : List Char} {c : Char} {cs : List Char}
    (h1 : pat.isPrefixOf (c :: cs) = false) (h2 : splitAtSub pat cs = none) :
    splitAtSub pat (c :: cs) = none := by
  rw [splitAtSub.eq_def]
  simp only [h1, Bool.false_eq_true, if_false, h2]

theorem sectionBody_renderReport (rs : List RecordData) (h : ∀ r ∈ rs, wfData r) :
    sectionBody (renderReport rs) =
      some ('\n' :: joinLines (headerOne :: headerTwo :: rs.map renderRow)) := by
  obtain ⟨t, ht⟩ := joinLines_cons_eq headerOne (headerTwo :: rs.map renderRow)
  have hpre : (['\n', '\n'] : List Char).isPrefixOf
      ('\n' :: joinLines (headerOne :: headerTwo :: rs.map renderRow)) = false := by
    rw [ht, headerOne_head, List.cons_append]
    simp [List.isPrefixOf]
  have hnone := splitAtSub_nn_joinLines (reportLines_ok rs h)
  have hstep := splitAtSub_cons_none hpre hnone
  unfold sectionBody renderReport
  rw [splitAtSub_self_start (by decide)]
  dsimp only
  rw [hstep]

theorem dataLines_renderReport (rs : List RecordData) (h : ∀ r ∈ rs, wfData r) :
    dataLines ('\n' :: joinLines (headerOne :: headerTwo :: rs.map renderRow)) =
      rs.map renderRow := by
  unfold dataLines
  rw [pyStrip_report_rest rs,
    splitOnChar_joinLines (by simp) (fun l hl => (reportLines_ok rs h l hl).2),
    List.filter_eq_self.mpr]
  · rfl
  · intro l hl
    rcases List.mem_cons.mp hl with rfl | hl
    · decide
    · rcases List.mem_cons.mp hl with rfl | hl
      · decide
      · obtain ⟨r, hr, rfl⟩ := List.mem_map.mp hl
        exact renderRow_pipe r

theorem parseRow_short {line : List Char}
    (h : (splitOnChar '|' line).length < 5) : parseRow line = .ok none := by
  rcases hs : splitOnChar '|' line with _ | ⟨p0, _ | ⟨p1, _ | ⟨p2, _ | ⟨p3, _ | ⟨p4, rest⟩⟩⟩⟩⟩ <;>
    rw [hs] at h <;> unfold parseRow <;> rw [hs] <;>
    first
    | rfl
    | (simp only [List.length_cons] at h; omega)

theorem parseRow_some_elim {line : List Char} {r : Record}
    (h : parseRow line = .ok (some r)) :
    r.display_name = readableApp r.app ∧
      matchDriverApp (pyStrip ((splitOnChar '|' line).headD [])) =
        some (r.driver, r.app) := by
  unfold parseRow at h
  split at h
  case h_2 => exact absurd h (by simp)
  case h_1 p0 p1 p2 p3 p4 rest heq =>
    dsimp only at h
    split at h
    case h_1 => exact absurd h (by simp)
    case h_2 trials htr =>
      split at h
      case h_2 => exact absurd h (by simp)
      case h_1 a m f ha hm hf =>
        split at h
        case h_2 => exact absurd h (by simp)
        case h_1 driver app hda =>
          rw [Except.ok.injEq, Option.some.injEq] at h
          subst h
          rw [heq]
          exact ⟨rfl, hda⟩

theorem parseRows_filter_fiveCols : ∀ (ls : List (List Char)),
    parseRows ls = parseRows (ls.filter fiveColsB)
  | [] => rfl
  | l :: ls => by
    have ih := parseRows_filter_fiveCols ls
    by_cases hb : fiveColsB l
    · rw [List.filter_cons_of_pos hb]
      show (match parseRow l with
        | Except.error e => Except.error e
        | Except.ok none => parseRows ls
        | Except.ok (some r) => (parseRows ls).map (fun rs => r :: rs)) = _
      rw [ih]
      rfl
    · rw [List.filter_cons_of_neg hb]
      have hshort : (splitOnChar '|' l).length < 5 := by
        simp only [fiveColsB, decide_eq_true_eq, not_le] at hb
        omega
      show (match parseRow l with
        | Except.error e => Except.error e
        | Except.ok none => parseRows ls
        | Except.ok (some r) => (parseRows ls).map (fun rs => r :: rs)) = _
      rw [parseRow_short hshort]
      exact ih

theorem zip_get?_of {l : List Nat} {l' : List Nat} : ∀ {k a b}, l.get? k = some a →
    l'.get? k = some b → (l.zip l').get? k = some (a, b) := by
  induction l generalizing l' with
  | nil => intro k a b h; simp at h
  | cons x xs ih =>
    intro k a b h h'
    cases l' with
    | nil => simp at h'
    | cons y ys =>
      cases k with
      | zero =>
        simp only [List.get?] at h h'
        injection h with h
        injection h' with h'
        subst h
        subst h'
        rfl
      | succ k => exact @ih ys _ _ _ h h'

theorem replicate_get?_of {x : Nat} : ∀ {n k : Nat}, k < n →
    (List.replicate n x).get? k = some x := by
  intro n
  induction n with
  | zero => intro k h; omega
  | succ n ih =>
    intro k h
    cases k with
    | zero => rfl
    | succ k => exact ih (by omega)

theorem segsGo_get? : ∀ (l : List (Nat × Nat)) (i k : Nat),
    (segsGo i l).get? k = (l.get? k).map (fun bh => (i + k, bh.1, bh.2))
  | [], i, k => by simp [segsGo]
  | (b, h) :: t, i, 0 => by simp [segsGo]
  | (b, h) :: t, i, k + 1 => by
    have ih := segsGo_get? t (i + 1) k
    have e : i + 1 + k = i + (k + 1) := by omega
    show (segsGo (i + 1) t).get? k =
      Option.map (fun bh => (i + (k + 1), bh.1, bh.2)) (t.get? k)
    rw [ih, e]

theorem segsGo_length : ∀ (l : List (Nat × Nat)) (i : Nat),
    (segsGo i l).length = l.length
  | [], _ => rfl
  | (b, h) :: t, i => by
    show (segsGo (i + 1) t).length + 1 = t.length + 1
    rw [segsGo_length t (i + 1)]

theorem filterMap_if {α β : Type} (P : α → Prop) [DecidablePred P] (g : α → β) :
    ∀ l : List α,
    l.filterMap (fun a => if P a then some (g a) else none) =
      (l.filter (fun a => decide (P a))).map g
  | [] => rfl
  | a :: l => by
    have ih := filterMap_if P g l
    by_cases hp : P a
    · have h := @List.filterMap_cons_some α β
        (fun a => if P a then some (g a) else none) a l (g a) (by simp only [if_pos hp])
      rw [h, List.filter_cons_of_pos (by simpa using hp), List.map_cons, ih]
    · have h := @List.filterMap_cons_none α β
        (fun a => if P a then some (g a) else none) a l (by simp only [if_neg hp])
      rw [h, List.filter_cons_of_neg (by simpa using hp), ih]

theorem sepGo_spec : ∀ (ds : List (List Char)) (prev : List Char) (i : Nat),
    sepGo prev i ds =
      ((List.range ds.length).filterMap
        (fun k => if ds.getD k [] ≠ (prev :: ds).getD k [] then some (i + k) else none)).map
        (fun j : Nat => ((j : ℚ)) - 1 / 2)
  | [], prev, i => by simp [sepGo]
  | d :: ds, prev, i => by
    have ih := sepGo_spec ds d (i + 1)
    rw [List.length_cons, List.range_succ_eq_map]
    have hcomp :
        ((fun k => if (d :: ds).getD k [] ≠ (prev :: d :: ds).getD k []
            then some (i + k) else none) ∘ Nat.succ) =
        (fun k => if ds.getD k [] ≠ (d :: ds).getD k [] then some (i + 1 + k) else none) := by
      funext k
      simp only [Function.comp, List.getD_cons_succ]
      rw [show i + Nat.succ k = i + 1 + k from by omega]
    by_cases hd : d ≠ prev
    · have hf0 : (fun k => if (d :: ds).getD k [] ≠ (prev :: d :: ds).getD k []
          then some (i + k) else none) 0 = some (i + 0) := by
        simp only [List.getD_cons_zero]
        rw [if_pos hd]
      have hstep := @List.filterMap_cons_some Nat Nat
        (fun k => if (d :: ds).getD k [] ≠ (prev :: d :: ds).getD k []
          then some (i + k) else none) 0
        (List.map Nat.succ (List.range ds.length)) (i + 0) hf0
      rw [hstep, List.filterMap_map, hcomp, List.map_cons, ← ih]
      simp only [sepGo, if_pos hd, Nat.add_zero]
    · have hf0 : (fun k => if (d :: ds).getD k [] ≠ (prev :: d :: ds).getD k []
          then some (i + k) else none) 0 = none := by
        simp only [List.getD_cons_zero]
        rw [if_neg hd]
      push_neg at hd
      subst hd
      have hstep := @List.filterMap_cons_none Nat Nat
        (fun k => if (d :: ds).getD k [] ≠ (d :: d :: ds).getD k []
          then some (i + k) else none) 0
        (List.map Nat.succ (List.range ds.length)) hf0
      rw [hstep, List.filterMap_map, hcomp, ← ih]
      simp [sepGo]

theorem changeIdx_cons (d : List Char) (ds : List (List Char)) :
    changeIdx (d :: ds) =
      ((List.range ds.length).filter
        (fun k => decide (ds.getD k [] ≠ (d :: ds).getD k []))).map Nat.succ := by
  unfold changeIdx
  rw [List.length_cons, List.range_succ_eq_map, List.filter_cons]
  have h0 : (decide (1 ≤ 0) &&
      decide ((d :: ds).getD 0 [] ≠ (d :: ds).getD (0 - 1) [])) = false := by
    rfl
  rw [h0]
  simp only [Bool.false_eq_true, if_false]
  rw [List.filter_map]
  congr 1
  apply List.filter_congr
  intro k _
  simp only [Function.comp, List.getD_cons_succ, Nat.succ_sub_one]
  rw [decide_eq_true (Nat.succ_le_succ (Nat.zero_le k)), Bool.true_and]

theorem separatorXs_spec (dl : List (List Char)) :
    separatorXs dl = (changeIdx dl).map (fun j : Nat => ((j : ℚ)) - 1 / 2) := by
  cases dl with
  | nil => rfl
  | cons d ds =>
    show sepGo d 1 ds = _
    rw [sepGo_spec ds d 1, changeIdx_cons, List.map_map,
      filterMap_if (fun k => ds.getD k [] ≠ (d :: ds).getD k []) (fun k => 1 + k),
      List.map_map]
    apply List.map_congr_left
    intro k _
    simp only [Function.comp]
    rw [show 1 + k = Nat.succ k from by omega]

theorem cast_pred_q {i : Nat} (hi : 1 ≤ i) : (((i - 1 : Nat)) : ℚ) = ((i : ℚ)) - 1 := by
  have := Nat.cast_sub (R := ℚ) hi
  simpa using this

theorem labelsGo_eq_runsGo : ∀ (ds : List (List Char)) (cur : List Char) (start i : Nat),
    1 ≤ i →
    labelsGo cur start i ds =
      (runsGo start i cur ds).map
        (fun t => ((((t.1 : ℚ)) + ((t.2.1 : ℚ))) / 2, t.2.2))
  | [], cur, start, i, hi => by
    simp only [labelsGo, runsGo, List.map_cons, List.map_nil]
    rw [cast_pred_q hi,
      show ((start : ℚ)) + ((i : ℚ)) - 1 = ((start : ℚ)) + (((i : ℚ)) - 1) from by ring]
  | d :: ds, cur, start, i, hi => by
    by_cases hd : d = cur
    · have ih := labelsGo_eq_runsGo ds cur start (i + 1) (by omega)
      subst hd
      simp only [labelsGo, runsGo, ne_eq, not_true_eq_false, if_false, if_pos rfl]
      simpa using ih
    · have ih := labelsGo_eq_runsGo ds d i (i + 1) (by omega)
      simp only [labelsGo, runsGo, ne_eq, hd, not_false_eq_true, if_true, if_false,
        List.map_cons]
      rw [cast_pred_q hi,
        show ((start : ℚ)) + ((i : ℚ)) - 1 = ((start : ℚ)) + (((i : ℚ)) - 1) from by ring]
      rw [ih]

theorem categoryLabels_eq_runs (dl : List (List Char)) :
    categoryLabels dl =
      (runs dl).map (fun t => ((((t.1 : ℚ)) + ((t.2.1 : ℚ))) / 2, t.2.2)) := by
  cases dl with
  | nil => rfl
  | cons d ds => exact labelsGo_eq_runsGo ds d 0 1 (le_refl 1)

theorem runsGo_flat : ∀ (ds : List (List Char)) (start i : Nat) (cur : List Char),
    start < i →
    (runsGo start i cur ds).flatMap (fun t => List.replicate (t.2.1 + 1 - t.1) t.2.2) =
      List.replicate (i - start) cur ++ ds
  | [], start, i, cur, h => by
    simp only [runsGo, List.flatMap_cons, List.flatMap_nil, List.append_nil]
    rw [show i - 1 + 1 - start = i - start from by omega]
  | d :: ds, start, i, cur, h => by
    by_cases hd : d = cur
    · have ih := runsGo_flat ds start (i + 1) cur (by omega)
      subst hd
      simp only [runsGo, if_pos rfl, if_true]
      rw [ih, show i + 1 - start = (i - start) + 1 from by omega, List.replicate_succ',
        List.append_assoc]
      rfl
    · have ih := runsGo_flat ds i (i + 1) d (by omega)
      simp only [runsGo, if_neg hd, List.flatMap_cons]
      rw [ih, show i - 1 + 1 - start = i - start from by omega,
        show i + 1 - i = 1 from by omega]
      rfl

theorem runs_flat (dl : List (List Char)) :
    (runs dl).flatMap (fun t => List.replicate (t.2.1 + 1 - t.1) t.2.2) = dl := by
  cases dl with
  | nil => rfl
  | cons d ds =>
    show (runsGo 0 1 d ds).flatMap _ = d :: ds
    rw [runsGo_flat ds 0 1 d (by omega)]
    rfl

theorem runsGo_vals : ∀ (ds : List (List Char)) (start i : Nat) (cur : List Char),
    ∃ tl, (runsGo start i cur ds).map (fun t => t.2.2) = cur :: tl ∧
      List.Chain' (fun a b => a ≠ b) (cur :: tl)
  | [], start, i, cur => ⟨[], rfl, List.chain'_singleton cur⟩
  | d :: ds, start, i, cur => by
    by_cases hd : d = cur
    · subst hd
      obtain ⟨tl, htl, hch⟩ := runsGo_vals ds start (i + 1) d
      exact ⟨tl, by simp only [runsGo, if_pos rfl, if_true]; exact htl, hch⟩
    · obtain ⟨tl, htl, hch⟩ := runsGo_vals ds i (i + 1) d
      refine ⟨d :: tl, ?_, ?_⟩
      · simp only [runsGo, if_neg hd, List.map_cons, htl]
      · exact List.Chain'.cons (fun e => hd e.symm) hch

theorem runs_vals_chain (dl : List (List Char)) :
    List.Chain' (fun a b => a ≠ b) ((runs dl).map (fun t => t.2.2)) := by
  cases dl with
  | nil => exact List.chain'_nil
  | cons d ds =>
    obtain ⟨tl, htl, hch⟩ := runsGo_vals ds 0 1 d
    show List.Chain' _ ((runsGo 0 1 d ds).map (fun t => t.2.2))
    rw [htl]
    exact hch

theorem runsGo_first : ∀ (ds : List (List Char)) (start i : Nat) (cur : List Char),
    ∃ p tl, runsGo start i cur ds = p :: tl ∧ p.1 = start ∧ p.2.2 = cur
  | [], start, i, cur => ⟨(start, i - 1, cur), [], rfl, rfl, rfl⟩
  | d :: ds, start, i, cur => by
    by_cases hd : d = cur
    · subst hd
      obtain ⟨p, tl, he, h1, h2⟩ := runsGo_first ds start (i + 1) d
      exact ⟨p, tl, by simp only [runsGo, if_pos rfl, if_true]; exact he, h1, h2⟩
    · exact ⟨(start, i - 1, cur), runsGo i (i + 1) d ds,
        by simp only [runsGo, if_neg hd], rfl, rfl⟩

theorem runsGo_adj : ∀ (ds : List (List Char)) (start i : Nat) (cur : List Char),
    start < i →
    List.Chain' (fun a b => b.1 = a.2.1 + 1) (runsGo start i cur ds)
  | [], start, i, cur, h => List.chain'_singleton _
  | d :: ds, start, i, cur, h => by
    by_cases hd : d = cur
    · subst hd
      have ih := runsGo_adj ds start (i + 1) d (by omega)
      simp only [runsGo, if_pos rfl, if_true]
      exact ih
    · have ih := runsGo_adj ds i (i + 1) d (by omega)
      obtain ⟨p, tl, he, h1, _⟩ := runsGo_first ds i (i + 1) d
      simp only [runsGo, if_neg hd]
      rw [List.chain'_cons']
      constructor
      · intro b hb
        rw [he] at hb
        simp only [List.head?_cons, Option.mem_def, Option.some.injEq] at hb
        subst hb
        rw [h1]
        show i = i - 1 + 1
        omega
      · exact ih

theorem runsGo_last : ∀ (ds : List (List Char)) (start i : Nat) (cur : List Char),
    (runsGo start i cur ds).getLast?.map (fun t => t.2.1) = some (i + ds.length - 1)
  | [], start, i, cur => by simp [runsGo]
  | d :: ds, start, i, cur => by
    by_cases hd : d = cur
    · subst hd
      have ih := runsGo_last ds start (i + 1) d
      simp only [runsGo, if_pos rfl, if_true]
      rw [ih]
      congr 1
      simp only [List.length_cons]
      omega
    · have ih := runsGo_last ds i (i + 1) d
      obtain ⟨p, tl, he, _, _⟩ := runsGo_first ds i (i + 1) d
      simp only [runsGo, if_neg hd]
      rw [he, List.getLast?_cons_cons, ← he, ih]
      congr 1
      simp only [List.length_cons]
      omega

theorem runs_first_start (dl : List (List Char)) :
    ∀ p ∈ (runs dl).take 1, p.1 = 0 := by
  cases dl with
  | nil => simp [runs]
  | cons d ds =>
    obtain ⟨p, tl, he, h1, _⟩ := runsGo_first ds 0 1 d
    show ∀ p ∈ ((runsGo 0 1 d ds).take 1), p.1 = 0
    rw [he]
    intro q hq
    rcases List.mem_singleton.mp (by simpa using hq) with rfl
    exact h1

theorem runs_adj (dl : List (List Char)) :
    List.Chain' (fun a b => b.1 = a.2.1 + 1) (runs dl) := by
  cases dl with
  | nil => exact List.chain'_nil
  | cons d ds => exact runsGo_adj ds 0 1 d (by omega)

theorem runs_last_end (dl : List (List Char)) (h : dl ≠ []) :
    (runs dl).getLast?.map (fun t => t.2.1) = some (dl.length - 1) := by
  cases dl with
  | nil => exact absurd rfl h
  | cons d ds =>
    show (runsGo 0 1 d ds).getLast?.map (fun t => t.2.1) = _
    rw [runsGo_last ds 0 1 d]
    congr 1
    simp only [List.length_cons]
    omega

theorem overlayGo_mem_iff : ∀ (t : List Nat) (i j : Nat) (y : ℚ) (v : Nat),
    ((j, y, v) ∈ overlayGo i t) ↔
      ∃ k, t.get? k = some v ∧ j = i + k ∧ 0 < v ∧ y = ((v : ℚ)) / 2 := by
  intro t
  induction t with
  | nil =>
    intro i j y v
    simp [overlayGo]
  | cons h t ih =>
    intro i j y v
    constructor
    · intro hm
      rcases List.mem_append.mp hm with hm | hm
      · by_cases hp : 0 < h
        · rw [if_pos hp] at hm
          obtain he := List.mem_singleton.mp hm
          simp only [Prod.mk.injEq] at he
          obtain ⟨e1, e2, e3⟩ := he
          subst e1
          subst e2
          subst e3
          exact ⟨0, rfl, by omega, hp, rfl⟩
        · rw [if_neg hp] at hm
          exact absurd hm (List.not_mem_nil _)
      · obtain ⟨k, hk, hj, hv, hy⟩ := (ih (i + 1) j y v).mp hm
        exact ⟨k + 1, hk, by omega, hv, hy⟩
    · rintro ⟨k, hk, rfl, hv, rfl⟩
      cases k with
      | zero =>
        simp only [List.get?] at hk
        injection hk with hk
        subst hk
        apply List.mem_append.mpr
        left
        rw [if_pos hv]
        simp
      | succ k =>
        apply List.mem_append.mpr
        right
        exact (ih (i + 1) (i + (k + 1)) _ v).mpr ⟨k, hk, by omega, hv, rfl⟩

theorem overlayGoSim_get : ∀ (t : List Nat) (k i v : Nat), t.get? k = some v →
    (i + k, ((v : ℚ)) / 2, v) ∈ overlayGoSim i t
  | [], k, i, v, h => by simp at h
  | x :: t, 0, i, v, h => by
    simp only [List.get?] at h
    injection h with h
    subst h
    show (i + 0, ((x : ℚ)) / 2, x) ∈ (i, ((x : ℚ)) / 2, x) :: overlayGoSim (i + 1) t
    simp
  | x :: t, k + 1, i, v, h => by
    have ih := overlayGoSim_get t k (i + 1) v h
    show _ ∈ (i, ((x : ℚ)) / 2, x) :: overlayGoSim (i + 1) t
    apply List.mem_cons_of_mem
    rw [show i + (k + 1) = i + 1 + k from by omega]
    exact ih

theorem autoRecovery_get? {rs : List Record} {i : Nat} {r : Record}
    (h : rs.get? i = some r) : (autoRecovery rs).get? i = some r.auto_pct := by
  rw [autoRecovery, List.get?_map, h]
  rfl

theorem manualRecovery_get? {rs : List Record} {i : Nat} {r : Record}
    (h : rs.get? i = some r) : (manualRecovery rs).get? i = some r.manual_pct := by
  rw [manualRecovery, List.get?_map, h]
  rfl

theorem failedRecovery_get? {rs : List Record} {i : Nat} {r : Record}
    (h : rs.get? i = some r) : (failedRecovery rs).get? i = some r.failed_pct := by
  rw [failedRecovery, List.get?_map, h]
  rfl

theorem autoPcts_get? {prs : List PRecord} {i : Nat} {r : PRecord}
    (h : prs.get? i = some r) : (autoPcts prs).get? i = some r.auto_pct := by
  rw [autoPcts, List.get?_map, h]
  rfl

theorem manualPcts_get? {prs : List PRecord} {i : Nat} {r : PRecord}
    (h : prs.get? i = some r) : (manualPcts prs).get? i = some r.manual_pct := by
  rw [manualPcts, List.get?_map, h]
  rfl

theorem failedPcts_get? {prs : List PRecord} {i : Nat} {r : PRecord}
    (h : prs.get? i = some r) : (failedPcts prs).get? i = some r.failed_pct := by
  rw [failedPcts, List.get?_map, h]
  rfl

theorem zipWith_add_get? : ∀ {l l' : List Nat} {k a b : Nat}, l.get? k = some a →
    l'.get? k = some b →
    (List.zipWith (fun x y => x + y) l l').get? k = some (a + b) := by
  intro l
  induction l with
  | nil => intro l' k a b h; simp at h
  | cons x xs ih =>
    intro l' k a b h h'
    cases l' with
    | nil => simp at h'
    | cons y ys =>
      cases k with
      | zero =>
        simp only [List.get?] at h h'
        injection h with h
        injection h' with h'
        subst h
        subst h'
        rfl
      | succ k => exact ih h h'

theorem segsAt {bots hts : List Nat} {i b hgt : Nat}
    (hb : bots.get? i = some b) (hh : hts.get? i = some hgt) :
    (segsGo 0 (bots.zip hts)).get? i = some (i, b, hgt) := by
  rw [segsGo_get?, zip_get?_of hb hh]
  simp

theorem record_get?_length {rs : List Record} {i : Nat} {r : Record}
    (h : rs.get? i = some r) : i < rs.length := by
  obtain ⟨hlen, -⟩ := List.get?_eq_some.mp h
  exact hlen

theorem precord_get?_length {prs : List PRecord} {i : Nat} {r : PRecord}
    (h : prs.get? i = some r) : i < prs.length := by
  obtain ⟨hlen, -⟩ := List.get?_eq_some.mp h
  exact hlen

set_option maxRecDepth 40000

/-- C1: the spec says a data row whose second (trials) column does not
parse as an integer is skipped with a logged diagnostic while the rest
of the rows are still returned.  The code calls int on that column with
no exception handling, so the whole parse aborts with an uncaught
ValueError and no records are returned: on a report whose first data
row has trials column abc and whose second data row is fully valid,
parse_results raises instead of returning the second row's record. -/
theorem C1_unguarded_trials_aborts :
    parse_results badTrialsReport = .error (.valueError ("abc").data) := by
  decide

/-- C2: each slot of the stacked chart gets exactly three segments with
bottoms 0, autoPct and autoPct plus manualPct, heights autoPct,
manualPct and failedPct, so the stack's top edge is exactly the sum of
the three percentages with no clamping or normalisation; this holds for
the renderers of both plot_results.py (Record) and plot.py (PRecord),
and each of the three bar lists has one entry per record. -/
theorem C2_stacked_segments :
    (∀ (rs : List Record) (i : Nat) (r : Record), rs.get? i = some r →
      (autoSegs rs).get? i = some (i, 0, r.auto_pct) ∧
      (manualSegs rs).get? i = some (i, r.auto_pct, r.manual_pct) ∧
      (failedSegs rs).get? i = some (i, r.auto_pct + r.manual_pct, r.failed_pct) ∧
      stackTop rs i = some (r.auto_pct + r.manual_pct + r.failed_pct)) ∧
    (∀ rs : List Record, (autoSegs rs).length = rs.length ∧
      (manualSegs rs).length = rs.length ∧ (failedSegs rs).length = rs.length) ∧
    (∀ (prs : List PRecord) (i : Nat) (r : PRecord), prs.get? i = some r →
      (autoSegsSim prs).get? i = some (i, 0, r.auto_pct) ∧
      (manualSegsSim prs).get? i = some (i, r.auto_pct, r.manual_pct) ∧
      (failedSegsSim prs).get? i = some (i, r.auto_pct + r.manual_pct, r.failed_pct) ∧
      stackTopSim prs i = some (r.auto_pct + r.manual_pct + r.failed_pct)) ∧
    (∀ prs : List PRecord, (autoSegsSim prs).length = prs.length ∧
      (manualSegsSim prs).length = prs.length ∧
      (failedSegsSim prs).length = prs.length) := by
  refine ⟨?_, ?_, ?_, ?_⟩
  · intro rs i r h
    have hlen := record_get?_length h
    have h1 : (autoSegs rs).get? i = some (i, 0, r.auto_pct) := by
      rw [autoSegs]
      exact segsAt (replicate_get?_of hlen) (autoRecovery_get? h)
    have h2 : (manualSegs rs).get? i = some (i, r.auto_pct, r.manual_pct) := by
      rw [manualSegs]
      exact segsAt (autoRecovery_get? h) (manualRecovery_get? h)
    have h3 : (failedSegs rs).get? i =
        some (i, r.auto_pct + r.manual_pct, r.failed_pct) := by
      rw [failedSegs]
      exact segsAt (zipWith_add_get? (autoRecovery_get? h) (manualRecovery_get? h))
        (failedRecovery_get? h)
    refine ⟨h1, h2, h3, ?_⟩
    rw [stackTop, h3]
  · intro rs
    refine ⟨?_, ?_, ?_⟩ <;>
      simp [autoSegs, manualSegs, failedSegs, segsGo_length, autoRecovery,
        manualRecovery, failedRecovery, failedBottom]
  · intro prs i r h
    have hlen := precord_get?_length h
    have h1 : (autoSegsSim prs).get? i = some (i, 0, r.auto_pct) := by
      rw [autoSegsSim]
      exact segsAt (replicate_get?_of hlen) (autoPcts_get? h)
    have h2 : (manualSegsSim prs).get? i = some (i, r.auto_pct, r.manual_pct) := by
      rw [manualSegsSim]
      exact segsAt (autoPcts_get? h) (manualPcts_get? h)
    have h3 : (failedSegsSim prs).get? i =
        some (i, r.auto_pct + r.manual_pct, r.failed_pct) := by
      rw [failedSegsSim]
      exact segsAt (zipWith_add_get? (autoPcts_get? h) (manualPcts_get? h))
        (failedPcts_get? h)
    refine ⟨h1, h2, h3, ?_⟩
    rw [stackTopSim, h3]
  · intro prs
    refine ⟨?_, ?_, ?_⟩ <;>
      simp [autoSegsSim, manualSegsSim, failedSegsSim, segsGo_length, autoPcts,
        manualPcts, failedPcts, failedBottomSim]

/-- Witness for C2 at a concrete one-record list whose percentages sum
to 150, showing the stack top is the raw sum rather than 100. -/
theorem C2_stacked_segments_witness :
    (autoSegs [sumRecord]).get? 0 = some (0, 0, 90) ∧
    (manualSegs [sumRecord]).get? 0 = some (0, 90, 40) ∧
    (failedSegs [sumRecord]).get? 0 = some (0, 130, 20) ∧
    stackTop [sumRecord] 0 = some 150 := by
  obtain ⟨h1, h2, h3, h4⟩ := C2_stacked_segments.1 [sumRecord] 0 sumRecord rfl
  exact ⟨h1, h2, h3, h4⟩

/-- C3: parsing a report generated from a well-formed record set — the
results-section header, a two-line pipe-containing table header, and
one driver/app, trials, three-percentage row per record — recovers
records with the same driver, app, trials and percentage values, in
the same order (expectedRecord copies those six fields unchanged). -/
theorem C3_parse_recovers_render (rs : List RecordData) (h : ∀ r ∈ rs, wfData r) :
    parse_results (renderReport rs) = .ok (some (rs.map expectedRecord)) := by
  unfold parse_results
  rw [sectionBody_renderReport rs h]
  dsimp only
  rw [dataLines_renderReport rs h, parseRows_map_renderRow h]
  rfl

/-- Witness for C3 at the spec's concrete two-row scenario. -/
theorem C3_parse_recovers_render_witness :
    parse_results (renderReport scenarioData) =
      .ok (some (scenarioData.map expectedRecord)) :=
  C3_parse_recovers_render scenarioData (by decide)

/-- C4: the separator scan of both create_graph functions draws a line
at x equal to i minus one half exactly at the slots i of at least 1
whose mapped category differs from the previous slot's; the label loop
emits exactly one label per maximal run of equal categories, centred at
the mean of the run's first and last slot (runs is sound: it flattens
back to the category list, adjacent runs carry different categories,
runs tile the slots contiguously from 0 to the last slot); and a
single-category list yields no separator and exactly one label. -/
theorem C4_separators_and_labels :
    (∀ dl : List (List Char),
      separatorXs dl = (changeIdx dl).map (fun j : Nat => ((j : ℚ)) - 1 / 2)) ∧
    (∀ dl : List (List Char),
      categoryLabels dl =
        (runs dl).map (fun t => ((((t.1 : ℚ)) + ((t.2.1 : ℚ))) / 2, t.2.2))) ∧
    (∀ dl : List (List Char),
      (runs dl).flatMap (fun t => List.replicate (t.2.1 + 1 - t.1) t.2.2) = dl ∧
      List.Chain' (fun a b => a ≠ b) ((runs dl).map (fun t => t.2.2)) ∧
      List.Chain' (fun a b => b.1 = a.2.1 + 1) (runs dl) ∧
      (∀ p ∈ (runs dl).take 1, p.1 = 0)) ∧
    (∀ dl : List (List Char), dl ≠ [] →
      (runs dl).getLast?.map (fun t => t.2.1) = some (dl.length - 1)) ∧
    (∀ d : List Char, separatorXs [d] = [] ∧ categoryLabels [d] = [((0 : ℚ), d)]) := by
  refine ⟨separatorXs_spec, categoryLabels_eq_runs,
    fun dl => ⟨runs_flat dl, runs_vals_chain dl, runs_adj dl, runs_first_start dl⟩,
    runs_last_end, ?_⟩
  intro d
  refine ⟨rfl, ?_⟩
  show labelsGo d 0 1 [] = [((0 : ℚ), d)]
  simp only [labelsGo]
  norm_num

/-- Witness for C4's last-run-end clause at a concrete category list. -/
theorem C4_separators_and_labels_witness :
    (runs sepDrivers).getLast?.map (fun t => t.2.1) = some (sepDrivers.length - 1) :=
  C4_separators_and_labels.2.2.2.1 sepDrivers (by decide)

/-- C5 counterexample: the label snd/mp3_player!x is not exactly of the
driver/app shape (fullShapeB rejects it), yet the row carrying it is
accepted and contributes a record, because re.match anchors only at the
start of the string; so the claim that such rows are skipped is false. -/
theorem C5_trailing_label_accepted :
    fullShapeB (("snd/mp3_player!x").data) = false ∧
    parse_results trailingLabelReport = .ok (some [mp3Record]) := by
  constructor
  · decide
  · decide

/-- C5 amended: the label match is anchored at the start only — a row's
label is accepted exactly when the trimmed column 0 begins with a
non-empty word run, a slash and a non-empty word run, and any trailing
characters after that prefix are ignored; every accepted row's driver
and app are such word runs, with a possibly non-empty ignored rest. -/
theorem C5_label_prefix_match :
    (∀ s : List Char, (matchDriverApp s).isSome = true ↔
      ∃ d a rest, s = d ++ '/' :: (a ++ rest) ∧ d ≠ [] ∧ a ≠ [] ∧
        (∀ c ∈ d, isWordChar c = true) ∧ (∀ c ∈ a, isWordChar c = true)) ∧
    (∀ (line : List Char) (r : Record), parseRow line = .ok (some r) →
      ∃ rest, pyStrip ((splitOnChar '|' line).headD []) =
          r.driver ++ '/' :: (r.app ++ rest) ∧
        r.driver ≠ [] ∧ r.app ≠ [] ∧ (∀ c ∈ r.driver, isWordChar c = true) ∧
        (∀ c ∈ r.app, isWordChar c = true)) := by
  constructor
  · exact matchDriverApp_isSome_iff
  · intro line r h
    obtain ⟨-, hm⟩ := parseRow_some_elim h
    obtain ⟨hd, ha, hdw, haw, rest, hs⟩ := matchDriverApp_some_shape hm
    exact ⟨rest, hs, hd, ha, hdw, haw⟩

/-- Witness for C5's amended claim at the trailing-junk row. -/
theorem C5_label_prefix_match_witness :
    ∃ rest, pyStrip ((splitOnChar '|' trailingRow).headD []) =
        mp3Record.driver ++ '/' :: (mp3Record.app ++ rest) ∧
      mp3Record.driver ≠ [] ∧ mp3Record.app ≠ [] ∧
      (∀ c ∈ mp3Record.driver, isWordChar c = true) ∧
      (∀ c ∈ mp3Record.app, isWordChar c = true) :=
  C5_label_prefix_match.2 trailingRow mp3Record (by decide)

/-- C6 counterexample: in plot.py the overlay loop has no positivity
test, so a record with a zero automatic-recovery percentage still gets
an overlaid number (the text 0 at height 0); the claim that a zero
segment gets no overlaid number is false for that renderer. -/
theorem C6_zero_auto_overlaid :
    overlayTextsSim [zeroAutoSim] = [(0, 0, 0)] := by
  norm_num [overlayTextsSim, overlayGoSim, autoPcts, zeroAutoSim]

/-- C6 amended: plot_results.py overlays the numeric autoPct centred in
the auto segment (x at the slot index, y at half the segment height)
exactly when that height is positive, and a record with autoPct zero
gets no overlay there; plot.py overlays the number for every record
unconditionally, including autoPct zero. -/
theorem C6_overlay_condition :
    (∀ (rs : List Record) (i : Nat) (r : Record), rs.get? i = some r →
      (0 < r.auto_pct →
        (i, ((r.auto_pct : ℚ)) / 2, r.auto_pct) ∈ overlayTexts rs) ∧
      (r.auto_pct = 0 → ∀ (y : ℚ) (v : Nat), (i, y, v) ∉ overlayTexts rs)) ∧
    (∀ (prs : List PRecord) (i : Nat) (r : PRecord), prs.get? i = some r →
      (i, ((r.auto_pct : ℚ)) / 2, r.auto_pct) ∈ overlayTextsSim prs) := by
  constructor
  · intro rs i r h
    constructor
    · intro hpos
      rw [overlayTexts]
      exact (overlayGo_mem_iff (autoRecovery rs) 0 i _ _).mpr
        ⟨i, autoRecovery_get? h, by omega, hpos, rfl⟩
    · intro hz y v hm
      rw [overlayTexts] at hm
      obtain ⟨k, hk, hj, hv, -⟩ := (overlayGo_mem_iff (autoRecovery rs) 0 i y v).mp hm
      have hki : k = i := by omega
      subst hki
      rw [autoRecovery_get? h] at hk
      injection hk with hk
      omega
  · intro prs i r h
    have := overlayGoSim_get (autoPcts prs) i 0 r.auto_pct (autoPcts_get? h)
    simpa using this

/-- Witness for C6's amended claim: in a two-record list whose first
record has autoPct zero and whose second has autoPct 30, the first slot
gets no overlay from plot_results.py while the second gets one. -/
theorem C6_overlay_condition_witness :
    (∀ (y : ℚ) (v : Nat), (0, y, v) ∉
      overlayTexts [{ sumRecord with auto_pct := 0 }, { sumRecord with auto_pct := 30 }]) ∧
    (1, ((30 : ℚ)) / 2, 30) ∈
      overlayTexts [{ sumRecord with auto_pct := 0 }, { sumRecord with auto_pct := 30 }] := by
  constructor
  · exact (C6_overlay_condition.1
      [{ sumRecord with auto_pct := 0 }, { sumRecord with auto_pct := 30 }] 0
      { sumRecord with auto_pct := 0 } rfl).2 rfl
  · exact (C6_overlay_condition.1
      [{ sumRecord with auto_pct := 0 }, { sumRecord with auto_pct := 30 }] 1
      { sumRecord with auto_pct := 30 } rfl).1 (by decide)

/-- C7: the parser's candidate rows are exactly the pipe-containing
lines of the stripped section body with the first two discarded; with
fewer than two pipe-containing lines the candidate set is empty; every
retained candidate contains a pipe; and rows splitting into fewer than
five pipe-delimited columns contribute nothing — the row loop computes
the same records as if those short rows had been removed first. -/
theorem C7_data_line_selection :
    (∀ body : List Char, dataLines body = (pipeLines body).drop 2) ∧
    (∀ body : List Char, (pipeLines body).length < 2 → dataLines body = []) ∧
    (∀ (body l : List Char), l ∈ dataLines body → pipeB l = true) ∧
    (∀ ls : List (List Char), parseRows ls = parseRows (ls.filter fiveColsB)) := by
  refine ⟨fun body => rfl, ?_, ?_, parseRows_filter_fiveCols⟩
  · intro body h
    show (pipeLines body).drop 2 = []
    rw [List.drop_eq_nil_iff_le]
    omega
  · intro body l hl
    have hmem : l ∈ pipeLines body := List.mem_of_mem_drop hl
    exact List.of_mem_filter hmem

/-- Witness for C7 at a section body with a single pipe-containing
line: the candidate set is empty. -/
theorem C7_data_line_selection_witness :
    dataLines (("a|b").data) = [] :=
  C7_data_line_selection.2.1 (("a|b").data) (by decide)

/-- C8 counterexample: plot.py's create_graph does not report-and-return
on an empty record list — it raises IndexError when the separator scan
subscripts the empty category list, so the render operation does not
return normally (though it still writes no file). -/
theorem C8_plot_empty_raises :
    (create_graph_sim []).isOk = false := by
  decide

/-- C8 amended: on an empty record sequence, plot_results.py's renderer
prints the caller error and returns having written no output file,
while plot.py's renderer aborts with an IndexError before its savefig
calls — so neither writes any file, but only plot_results.py reports
and returns as the claim states. -/
theorem C8_empty_input_behaviour :
    create_graph [] = { messages := [("No results to plot!").data], files := [] } ∧
    (create_graph []).files = [] ∧
    create_graph_sim [] = .error .indexError := by
  refine ⟨?_, ?_, ?_⟩ <;> decide

/-- C9: every accepted row's display name is derived from its app field
by replacing underscores with spaces and title-casing, except for the
fixed override table containing mp3_player; in particular mp3_player
yields MP3 Player (not Mp3 Player) and audio_recorder yields
Audio Recorder. -/
theorem C9_display_names :
    (∀ (line : List Char) (r : Record), parseRow line = .ok (some r) →
      r.display_name = (if r.app = ("mp3_player").data then ("MP3 Player").data
        else pyTitle (pyReplaceUnderscore r.app))) ∧
    readableApp (("mp3_player").data) = ("MP3 Player").data ∧
    readableApp (("audio_recorder").data) = ("Audio Recorder").data := by
  refine ⟨?_, by decide, by decide⟩
  intro line r h
  rw [(parseRow_some_elim h).1]
  rfl

/-- Witness for C9 at the spec's mp3_player row. -/
theorem C9_display_names_witness :
    mp3Record.display_name = (if mp3Record.app = ("mp3_player").data
      then ("MP3 Player").data
      else pyTitle (pyReplaceUnderscore mp3Record.app)) :=
  C9_display_names.1 mp3Row mp3Record (by decide)

/-- C10: every record of the hardcoded simulation_results dataset has
percentages summing to 100 and total_trials 100, and records sharing a
driver code are contiguous — the run decomposition of the driver list
snd, snd, e1000, e1000, ide, ide has pairwise distinct run values. -/
theorem C10_dataset_invariants :
    (∀ r ∈ simulation_results,
      r.auto_pct + r.manual_pct + r.failed_pct = 100 ∧ r.total_trials = 100) ∧
    simulation_results.map (fun r => r.driver) =
      [("snd").data, ("snd").data, ("e1000").data, ("e1000").data,
       ("ide").data, ("ide").data] ∧
    ((runs (simulation_results.map (fun r => r.driver))).map (fun t => t.2.2)).Nodup := by
  refine ⟨by decide, by decide, by decide⟩
